import Mathlib

/-!
Verification of the bounding box and polygon IOU utilities of the ese_seg
repository (gluon-cv/gluoncv/utils/bbox.py), shallowly embedded over the
rationals. External library primitives whose values are irrational (square
root, polar to Cartesian conversion) or geometric (convex hulls, polygon
intersection areas from shapely) are taken as explicit function parameters;
everything else follows the Python source line by line.
-/

namespace EseSeg

/-- A bounding box row in xyxy order: (xmin, ymin, xmax, ymax). -/
abbrev Box : Type := ℚ × ℚ × ℚ × ℚ

/-- Entry (i, j) of a matrix represented as a list of rows. -/
def matEntry? (m : List (List ℚ)) (i j : ℕ) : Option ℚ :=
  (m[i]?).bind (fun r => r[j]?)

/-- IOU of one pair of boxes, as computed per broadcast cell by bbox_iou in
bbox.py: top-left corner by elementwise max, bottom-right corner by
elementwise min, the area product multiplied by the strict inequality
indicator (tl less than br on both axes), and union area_a + area_b - area_i
in the denominator. -/
def box_pair_iou (a b : Box) (offset : ℚ) : ℚ :=
  let tlx := max a.1 b.1
  let tly := max a.2.1 b.2.1
  let brx := min a.2.2.1 b.2.2.1
  let bry := min a.2.2.2 b.2.2.2
  let area_i := (brx - tlx + offset) * (bry - tly + offset) *
    (if tlx < brx ∧ tly < bry then 1 else 0)
  let area_a := (a.2.2.1 - a.1 + offset) * (a.2.2.2 - a.2.1 + offset)
  let area_b := (b.2.2.1 - b.1 + offset) * (b.2.2.2 - b.2.1 + offset)
  area_i / (area_a + area_b - area_i)

/-- Function bbox_iou of bbox.py: the broadcasted N x M matrix of pairwise
box IOU values. -/
def bbox_iou (bbox_a bbox_b : List Box) (offset : ℚ) : List (List ℚ) :=
  bbox_a.map (fun a => bbox_b.map (fun b => box_pair_iou a b offset))

/-- The per-pair box IOU formula is symmetric in its two boxes. -/
theorem box_pair_iou_comm (a b : Box) (offset : ℚ) :
    box_pair_iou a b offset = box_pair_iou b a offset := by
  simp only [box_pair_iou]
  rw [max_comm a.1 b.1, max_comm a.2.1 b.2.1, min_comm a.2.2.1 b.2.2.1,
    min_comm a.2.2.2 b.2.2.2]
  ring_nf

/-- C3: bbox_iou on the single boxes A = (0,0,10,10) and B = (5,5,15,15) with
offset 0 returns the 1 x 1 matrix whose entry is 25/175: intersection area
25, union area 100 + 100 - 25 = 175. -/
theorem bbox_iou_example_C3 :
    bbox_iou [((0 : ℚ), 0, 10, 10)] [((5 : ℚ), 5, 15, 15)] 0 = [[25 / 175]] := by
  norm_num [bbox_iou, box_pair_iou, max_def, min_def]

/-- C4 counterexample: for the degenerate box (0,0,0,0) with offset 1, the
strict inequality indicator zeroes the intersection area and bbox_iou of the
box against itself is the 1 x 1 matrix [[0]], not [[1]]. -/
theorem bbox_iou_self_cex_C4 :
    bbox_iou [((0 : ℚ), 0, 0, 0)] [((0 : ℚ), 0, 0, 0)] 1 ≠ [[1]] := by
  norm_num [bbox_iou, box_pair_iou, max_def, min_def]

/-- C4 (amended): for every box with xmin strictly less than xmax and ymin
strictly less than ymax, and every nonnegative offset, the single entry of
bbox_iou of the box against itself is exactly 1. -/
theorem bbox_iou_self_one_C4 (b : Box) (offset : ℚ)
    (hx : b.1 < b.2.2.1) (hy : b.2.1 < b.2.2.2) (hoff : 0 ≤ offset) :
    bbox_iou [b] [b] offset = [[1]] := by
  obtain ⟨x1, y1, x2, y2⟩ := b
  simp only at hx hy
  have harea : 0 < (x2 - x1 + offset) * (y2 - y1 + offset) :=
    mul_pos (by linarith) (by linarith)
  simp only [bbox_iou, List.map, box_pair_iou, max_self, min_self,
    if_pos (And.intro hx hy), mul_one]
  rw [show (x2 - x1 + offset) * (y2 - y1 + offset) +
      (x2 - x1 + offset) * (y2 - y1 + offset) -
      (x2 - x1 + offset) * (y2 - y1 + offset) =
      (x2 - x1 + offset) * (y2 - y1 + offset) by ring]
  rw [div_self harea.ne']

/-- C4 witness: the amended self IOU theorem evaluated at the box
(0,0,10,10) with offset 0. -/
theorem bbox_iou_self_one_C4_witness :
    bbox_iou [((0 : ℚ), 0, 10, 10)] [((0 : ℚ), 0, 10, 10)] 0 = [[1]] :=
  bbox_iou_self_one_C4 ((0 : ℚ), 0, 10, 10) 0 (by norm_num) (by norm_num)
    (le_refl 0)

/-- Entry access through a matrix built as a double map: the entry at (i, j)
is the pair function applied to the ith left element and jth right element,
when both exist. -/
theorem matEntry?_map_map {α β : Type} (f : α → β → ℚ) (A : List α)
    (B : List β) (i j : ℕ) :
    matEntry? (A.map (fun a => B.map (f a))) i j =
      (A[i]?).bind (fun a => (B[j]?).map (f a)) := by
  simp only [matEntry?, List.getElem?_map]
  cases A[i]? <;> simp [List.getElem?_map]

/-- C5: for all box tables A and B and any offset, entry (i, j) of
bbox_iou A B equals entry (j, i) of bbox_iou B A, including out-of-range
indices (both sides are then none), so the transpose of bbox_iou A B equals
bbox_iou B A. -/
theorem bbox_iou_transpose_C5 (A B : List Box) (offset : ℚ) (i j : ℕ) :
    matEntry? (bbox_iou A B offset) i j = matEntry? (bbox_iou B A offset) j i := by
  rw [bbox_iou, bbox_iou, matEntry?_map_map, matEntry?_map_map]
  cases hA : A[i]? with
  | none => cases hB : B[j]? <;> simp
  | some a =>
    cases hB : B[j]? with
    | none => simp
    | some b => simp [box_pair_iou_comm a b offset]

/-- Tuple branch of bbox_xywh_to_xyxy in bbox.py: width and height are
reduced by 1 and clamped at 0 before being added to the origin. -/
def bbox_xywh_to_xyxy_t (xywh : Box) : Box :=
  (xywh.1, xywh.2.1, xywh.1 + max (xywh.2.2.1 - 1) 0,
    xywh.2.1 + max (xywh.2.2.2 - 1) 0)

/-- Ndarray branch of bbox_xywh_to_xyxy in bbox.py: horizontal stack of the
first two columns and of the first two columns plus the clamped reduced
sizes, row represented. -/
def bbox_xywh_to_xyxy_nd (xywh : List (List ℚ)) : List (List ℚ) :=
  List.zipWith (· ++ ·) (xywh.map (fun r => r.take 2))
    (List.zipWith (List.zipWith (· + ·)) (xywh.map (fun r => r.take 2))
      (xywh.map (fun r => ((r.drop 2).take 2).map (fun v => max 0 (v - 1)))))

/-- Tuple branch of bbox_xyxy_to_xywh in bbox.py: inclusive sizes
x2 - x1 + 1 and y2 - y1 + 1. -/
def bbox_xyxy_to_xywh_t (xyxy : Box) : Box :=
  (xyxy.1, xyxy.2.1, xyxy.2.2.1 - xyxy.1 + 1, xyxy.2.2.2 - xyxy.2.1 + 1)

/-- Ndarray branch of bbox_xyxy_to_xywh in bbox.py: horizontal stack of the
first two columns and of columns 2:4 minus columns 0:2 plus 1. -/
def bbox_xyxy_to_xywh_nd (xyxy : List (List ℚ)) : List (List ℚ) :=
  List.zipWith (· ++ ·) (xyxy.map (fun r => r.take 2))
    (List.zipWith (List.zipWith (fun s t => s - t + 1))
      (xyxy.map (fun r => (r.drop 2).take 2)) (xyxy.map (fun r => r.take 2)))

/-- Tuple branch of bbox_clip_xyxy in bbox.py: each coordinate becomes
minimum of the boundary minus one and the maximum of 0 and the value. -/
def bbox_clip_xyxy_t (xyxy : Box) (width height : ℚ) : Box :=
  (min (width - 1) (max 0 xyxy.1), min (height - 1) (max 0 xyxy.2.1),
    min (width - 1) (max 0 xyxy.2.2.1), min (height - 1) (max 0 xyxy.2.2.2))

/-- Ndarray branch of bbox_clip_xyxy in bbox.py: the four clipped columns
x1, y1, x2, y2 are one dimensional arrays of length N and np.hstack joins
them into one flat array of length 4N. -/
def bbox_clip_xyxy_nd (xyxy : List (List ℚ)) (width height : ℚ) : List ℚ :=
  xyxy.map (fun r => min (width - 1) (max 0 (r.getD 0 0))) ++
    xyxy.map (fun r => min (height - 1) (max 0 (r.getD 1 0))) ++
    xyxy.map (fun r => min (width - 1) (max 0 (r.getD 2 0))) ++
    xyxy.map (fun r => min (height - 1) (max 0 (r.getD 3 0)))

/-- Unfolding bbox_xywh_to_xyxy_nd on a cons cell. -/
theorem bbox_xywh_to_xyxy_nd_cons (r : List ℚ) (rs : List (List ℚ)) :
    bbox_xywh_to_xyxy_nd (r :: rs) =
      (r.take 2 ++ List.zipWith (· + ·) (r.take 2)
        (((r.drop 2).take 2).map (fun v => max 0 (v - 1)))) ::
        bbox_xywh_to_xyxy_nd rs := rfl

/-- Unfolding bbox_xyxy_to_xywh_nd on a cons cell. -/
theorem bbox_xyxy_to_xywh_nd_cons (r : List ℚ) (rs : List (List ℚ)) :
    bbox_xyxy_to_xywh_nd (r :: rs) =
      (r.take 2 ++ List.zipWith (fun s t => s - t + 1) ((r.drop 2).take 2)
        (r.take 2)) :: bbox_xyxy_to_xywh_nd rs := rfl

/-- The ndarray conversion round trip is the identity on every table whose
rows are four entries long with sizes at least 1. -/
theorem bbox_roundtrip_nd (rows : List (List ℚ))
    (hrows : ∀ r ∈ rows, ∃ a b u v, r = [a, b, u, v] ∧ 1 ≤ u ∧ 1 ≤ v) :
    bbox_xyxy_to_xywh_nd (bbox_xywh_to_xyxy_nd rows) = rows := by
  induction rows with
  | nil => rfl
  | cons r rs ih =>
    obtain ⟨a, b, u, v, hr, hu, hv⟩ := hrows r (List.mem_cons_self r rs)
    subst hr
    rw [bbox_xywh_to_xyxy_nd_cons, bbox_xyxy_to_xywh_nd_cons,
      ih (fun r hr => hrows r (List.mem_cons_of_mem _ hr))]
    congr 1
    simp only [List.take, List.drop, List.map, List.zipWith, List.cons_append,
      List.nil_append]
    rw [max_eq_right (by linarith : (0 : ℚ) ≤ u - 1),
      max_eq_right (by linarith : (0 : ℚ) ≤ v - 1)]
    simp only [List.cons.injEq, and_true, true_and, eq_self_iff_true]
    constructor <;> ring

/-- C6: converting a box from xywh to xyxy and back returns the original box
when its width and height are at least 1, both on the tuple branch and on
the ndarray branch. -/
theorem bbox_xywh_xyxy_roundtrip_C6 (x y w h : ℚ) (hw : 1 ≤ w) (hh : 1 ≤ h)
    (rows : List (List ℚ))
    (hrows : ∀ r ∈ rows, ∃ a b u v, r = [a, b, u, v] ∧ 1 ≤ u ∧ 1 ≤ v) :
    bbox_xyxy_to_xywh_t (bbox_xywh_to_xyxy_t (x, y, w, h)) = (x, y, w, h) ∧
      bbox_xyxy_to_xywh_nd (bbox_xywh_to_xyxy_nd rows) = rows := by
  constructor
  · have hw1 : max (w - 1) 0 = w - 1 := max_eq_left (by linarith)
    have hh1 : max (h - 1) 0 = h - 1 := max_eq_left (by linarith)
    simp only [bbox_xywh_to_xyxy_t, bbox_xyxy_to_xywh_t, hw1, hh1,
      Prod.mk.injEq, true_and, and_true, eq_self_iff_true]
    constructor <;> ring
  · exact bbox_roundtrip_nd rows hrows

/-- C6 witness: the round trip evaluated at the tuple box (0, 0, 10, 10) and
at the one row table [[1, 2, 3, 4]]. -/
theorem bbox_xywh_xyxy_roundtrip_C6_witness :
    bbox_xyxy_to_xywh_t (bbox_xywh_to_xyxy_t ((0 : ℚ), 0, 10, 10)) =
        ((0 : ℚ), 0, 10, 10) ∧
      bbox_xyxy_to_xywh_nd (bbox_xywh_to_xyxy_nd [[(1 : ℚ), 2, 3, 4]]) =
        [[(1 : ℚ), 2, 3, 4]] :=
  bbox_xywh_xyxy_roundtrip_C6 0 0 10 10 (by norm_num) (by norm_num)
    [[(1 : ℚ), 2, 3, 4]]
    (by
      intro r hr
      simp only [List.mem_singleton] at hr
      exact ⟨1, 2, 3, 4, hr, by norm_num, by norm_num⟩)

/-- C7 counterexample: with width 0 and height 1, the first coordinate
returned by the tuple branch of bbox_clip_xyxy on the box (0,0,0,0) is
min (0 - 1) (max 0 0) = -1, which violates the claimed lower bound 0. -/
theorem bbox_clip_xyxy_cex_C7 :
    ¬ 0 ≤ (bbox_clip_xyxy_t ((0 : ℚ), 0, 0, 0) 0 1).1 := by
  norm_num [bbox_clip_xyxy_t, max_def, min_def]

/-- C7 (amended): when width and height are at least 1, every coordinate
produced by bbox_clip_xyxy lies in the claimed range: on the tuple branch
the x coordinates lie in [0, width - 1] and the y coordinates in
[0, height - 1], and on the ndarray branch every entry of the flat output
is nonnegative and each of the four stacked column segments obeys its
respective upper bound. -/
theorem bbox_clip_xyxy_bounds_C7 (b : Box) (rows : List (List ℚ))
    (width height : ℚ) (hw : 1 ≤ width) (hh : 1 ≤ height) :
    (0 ≤ (bbox_clip_xyxy_t b width height).1 ∧
        (bbox_clip_xyxy_t b width height).1 ≤ width - 1 ∧
        0 ≤ (bbox_clip_xyxy_t b width height).2.1 ∧
        (bbox_clip_xyxy_t b width height).2.1 ≤ height - 1 ∧
        0 ≤ (bbox_clip_xyxy_t b width height).2.2.1 ∧
        (bbox_clip_xyxy_t b width height).2.2.1 ≤ width - 1 ∧
        0 ≤ (bbox_clip_xyxy_t b width height).2.2.2 ∧
        (bbox_clip_xyxy_t b width height).2.2.2 ≤ height - 1) ∧
      (∀ v ∈ bbox_clip_xyxy_nd rows width height, 0 ≤ v) ∧
      (∀ v ∈ (bbox_clip_xyxy_nd rows width height).take rows.length,
        v ≤ width - 1) ∧
      (∀ v ∈ ((bbox_clip_xyxy_nd rows width height).drop rows.length).take
        rows.length, v ≤ height - 1) ∧
      (∀ v ∈ ((bbox_clip_xyxy_nd rows width height).drop
        (2 * rows.length)).take rows.length, v ≤ width - 1) ∧
      (∀ v ∈ (bbox_clip_xyxy_nd rows width height).drop (3 * rows.length),
        v ≤ height - 1) := by
  have h0w : (0 : ℚ) ≤ width - 1 := by linarith
  have h0h : (0 : ℚ) ≤ height - 1 := by linarith
  have lb : ∀ c v : ℚ, 0 ≤ c - 1 → 0 ≤ min (c - 1) (max 0 v) :=
    fun c v hc => le_min hc (le_max_left 0 v)
  refine ⟨?_, ?_, ?_, ?_, ?_, ?_⟩
  · simp only [bbox_clip_xyxy_t]
    exact ⟨lb _ _ h0w, min_le_left _ _, lb _ _ h0h, min_le_left _ _,
      lb _ _ h0w, min_le_left _ _, lb _ _ h0h, min_le_left _ _⟩
  · intro v hv
    simp only [bbox_clip_xyxy_nd, List.mem_append, List.mem_map] at hv
    rcases hv with ((⟨r, _, rfl⟩ | ⟨r, _, rfl⟩) | ⟨r, _, rfl⟩) | ⟨r, _, rfl⟩
    · exact lb _ _ h0w
    · exact lb _ _ h0h
    · exact lb _ _ h0w
    · exact lb _ _ h0h
  · intro v hv
    rw [bbox_clip_xyxy_nd, List.append_assoc, List.append_assoc,
      List.take_left' (by simp)] at hv
    obtain ⟨r, _, rfl⟩ := List.mem_map.mp hv
    exact min_le_left _ _
  · intro v hv
    rw [bbox_clip_xyxy_nd, List.append_assoc, List.append_assoc,
      List.drop_left' (by simp), List.take_left' (by simp)] at hv
    obtain ⟨r, _, rfl⟩ := List.mem_map.mp hv
    exact min_le_left _ _
  · intro v hv
    rw [bbox_clip_xyxy_nd, List.append_assoc,
      List.drop_left' (by simp [two_mul]), List.take_left' (by simp)] at hv
    obtain ⟨r, _, rfl⟩ := List.mem_map.mp hv
    exact min_le_left _ _
  · intro v hv
    rw [bbox_clip_xyxy_nd,
      List.drop_left' (by simp only [List.length_append, List.length_map]; omega)] at hv
    obtain ⟨r, _, rfl⟩ := List.mem_map.mp hv
    exact min_le_left _ _

/-- C7 witness: the amended clip bound theorem evaluated at the tuple box
(5, 5, 5, 5) with width and height 3. -/
theorem bbox_clip_xyxy_bounds_C7_witness :
    0 ≤ (bbox_clip_xyxy_t ((5 : ℚ), 5, 5, 5) 3 3).1 ∧
      (bbox_clip_xyxy_t ((5 : ℚ), 5, 5, 5) 3 3).1 ≤ 3 - 1 := by
  have h := bbox_clip_xyxy_bounds_C7 ((5 : ℚ), 5, 5, 5) [[(0 : ℚ), 0, 9, 9]]
    3 3 (by norm_num) (by norm_num)
  exact ⟨h.1.1, h.1.2.1⟩

/-- Rows of the ndarray xywh to xyxy conversion have four entries whenever
the input rows do. -/
theorem bbox_xywh_to_xyxy_nd_row_len (rows : List (List ℚ))
    (hrows : ∀ r ∈ rows, r.length = 4) :
    ∀ s ∈ bbox_xywh_to_xyxy_nd rows, s.length = 4 := by
  induction rows with
  | nil =>
    intro s hs
    simp [bbox_xywh_to_xyxy_nd] at hs
  | cons r rs ih =>
    intro s hs
    rw [bbox_xywh_to_xyxy_nd_cons] at hs
    rcases List.mem_cons.mp hs with h | h
    · subst h
      have hr4 := hrows r (List.mem_cons_self r rs)
      simp [List.length_append, List.length_zipWith, List.length_take,
        List.length_map, List.length_drop, hr4]
    · exact ih (fun t ht => hrows t (List.mem_cons_of_mem _ ht)) s h

/-- Rows of the ndarray xyxy to xywh conversion have four entries whenever
the input rows do. -/
theorem bbox_xyxy_to_xywh_nd_row_len (rows : List (List ℚ))
    (hrows : ∀ r ∈ rows, r.length = 4) :
    ∀ s ∈ bbox_xyxy_to_xywh_nd rows, s.length = 4 := by
  induction rows with
  | nil =>
    intro s hs
    simp [bbox_xyxy_to_xywh_nd] at hs
  | cons r rs ih =>
    intro s hs
    rw [bbox_xyxy_to_xywh_nd_cons] at hs
    rcases List.mem_cons.mp hs with h | h
    · subst h
      have hr4 := hrows r (List.mem_cons_self r rs)
      simp [List.length_append, List.length_zipWith, List.length_take,
        List.length_map, List.length_drop, hr4]
    · exact ih (fun t ht => hrows t (List.mem_cons_of_mem _ ht)) s h

/-- C10: on an N x 4 table the ndarray branch of bbox_clip_xyxy returns one
flat list of length 4N whose first segment is the clipped x1 column and
whose second segment is the clipped y1 column (column major stacking, not N
rows of 4), while the two format converters return a table of N rows that
are four entries long each. -/
theorem bbox_clip_flat_shape_C10 (rows : List (List ℚ)) (width height : ℚ)
    (hrows : ∀ r ∈ rows, r.length = 4) :
    (bbox_clip_xyxy_nd rows width height).length = 4 * rows.length ∧
      (bbox_clip_xyxy_nd rows width height).take rows.length =
        rows.map (fun r => min (width - 1) (max 0 (r.getD 0 0))) ∧
      ((bbox_clip_xyxy_nd rows width height).drop rows.length).take
          rows.length =
        rows.map (fun r => min (height - 1) (max 0 (r.getD 1 0))) ∧
      (bbox_xywh_to_xyxy_nd rows).length = rows.length ∧
      (∀ s ∈ bbox_xywh_to_xyxy_nd rows, s.length = 4) ∧
      (bbox_xyxy_to_xywh_nd rows).length = rows.length ∧
      (∀ s ∈ bbox_xyxy_to_xywh_nd rows, s.length = 4) := by
  refine ⟨?_, ?_, ?_, ?_, bbox_xywh_to_xyxy_nd_row_len rows hrows, ?_,
    bbox_xyxy_to_xywh_nd_row_len rows hrows⟩
  · simp only [bbox_clip_xyxy_nd, List.length_append, List.length_map]
    omega
  · rw [bbox_clip_xyxy_nd, List.append_assoc, List.append_assoc,
      List.take_left' (by simp)]
  · rw [bbox_clip_xyxy_nd, List.append_assoc, List.append_assoc,
      List.drop_left' (by simp), List.take_left' (by simp)]
  · simp [bbox_xywh_to_xyxy_nd, List.length_zipWith, List.length_map]
  · simp [bbox_xyxy_to_xywh_nd, List.length_zipWith, List.length_map]

/-- C10 witness: the shape theorem evaluated on the one row table
[[1, 2, 3, 4]] with width 6 and height 8. -/
theorem bbox_clip_flat_shape_C10_witness :
    (bbox_clip_xyxy_nd [[(1 : ℚ), 2, 3, 4]] 6 8).length = 4 * 1 ∧
      (bbox_xywh_to_xyxy_nd [[(1 : ℚ), 2, 3, 4]]).length = 1 := by
  have h := bbox_clip_flat_shape_C10 [[(1 : ℚ), 2, 3, 4]] 6 8
    (by intro r hr; simp only [List.mem_singleton] at hr; rw [hr]; rfl)
  exact ⟨h.1, h.2.2.2.1⟩

/-- Chebyshev polynomial of the first kind, by the standard recurrence. -/
def chebT : ℕ → ℚ → ℚ
  | 0, _ => 1
  | 1, x => x
  | n + 2, x => 2 * x * chebT (n + 1) x - chebT n x

/-- Behavior of the external numpy chebval primitive called by cheby in
bbox.py: the Chebyshev series with the given coefficient list, evaluated at
x. -/
def chebval (c : List ℚ) (x : ℚ) : ℚ :=
  (c.enum.map (fun kc => kc.2 * chebT kc.1 x)).sum

/-- The 360 point grid np.linspace(-1, 1, 360) used by cheby in bbox.py:
point k is -1 + 2k/359. -/
def theta360 : List ℚ :=
  (List.range 360).map (fun (k : ℕ) => -1 + 2 * (k : ℚ) / 359)

/-- Function cheby of bbox.py: each coefficient row evaluated on the fixed
grid, giving an N x 360 table of raw radius samples. -/
def cheby (coefs : List (List ℚ)) : List (List ℚ) :=
  coefs.map (fun c => theta360.map (chebval c))

/-- The descending angle row np.arange(359, -1, -1) of coef_trans_polygon:
359, 358, ..., 0 in degrees. -/
def thetaDeg : List ℚ :=
  (List.range 360).map (fun (j : ℕ) => 359 - (j : ℚ))

/-- Function coef_trans_polygon of bbox.py, parametrized by the external
numeric primitives it calls: sqrtFn models np.sqrt and p2c models
cv.polarToCart on one (radius, angle in degrees) sample, returning the
Cartesian offset pair. Per row, box width and height are absolute corner
differences, the diagonal length scales the Chebyshev radius samples, the
offsets are translated by the row center, and the coordinates are clipped
to the row box with np.clip, which computes min high (max low value). -/
def coef_trans_polygon (sqrtFn : ℚ → ℚ) (p2c : ℚ → ℚ → ℚ × ℚ)
    (coefs : List (List ℚ)) (bboxs : List Box) (centers : List (ℚ × ℚ)) :
    List (List (ℚ × ℚ)) :=
  List.zipWith
    (fun c bc =>
      let w := |bc.1.2.2.1 - bc.1.1|
      let h := |bc.1.2.2.2 - bc.1.2.1|
      let rel := sqrtFn (w * w + h * h)
      let rs := (theta360.map (chebval c)).map (fun v => v * rel)
      let pts := List.zipWith (fun r t => p2c r t) rs thetaDeg
      pts.map (fun d =>
        (min bc.1.2.2.1 (max bc.1.1 (d.1 + bc.2.1)),
          min bc.1.2.2.2 (max bc.1.2.1 (d.2 + bc.2.2)))))
    coefs (List.zip bboxs centers)

/-- Function polygon_iou of bbox.py, parametrized by the shapely geometry
primitives it calls: hull models Polygon(points).convex_hull, interArea
models the area of the intersection of two hulls where none models a raised
shapely TopologicalError, and unionHullArea models
MultiPoint(pooled points).convex_hull.area, with none again a raised
TopologicalError. The try block of the source covers both area
computations and the except branch writes 0 for the pair, so a none from
either primitive yields entry 0 and never escapes. The offset parameter of
the source is unused by its body and is omitted here. -/
def polygon_iou {H : Type} (hull : List (ℚ × ℚ) → H)
    (interArea : H → H → Option ℚ)
    (unionHullArea : List (ℚ × ℚ) → Option ℚ)
    (polygon_as polygon_bs : List (List (ℚ × ℚ))) : List (List ℚ) :=
  polygon_as.map (fun polygon_a =>
    polygon_bs.map (fun polygon_b =>
      match interArea (hull polygon_a) (hull polygon_b) with
      | none => 0
      | some inter_area =>
        match unionHullArea (polygon_a ++ polygon_b) with
        | none => 0
        | some union_area =>
          if union_area = 0 ∨ inter_area = 0 then 0
          else inter_area / union_area))

/-- Function coef_iou of bbox.py: reconstruct both coefficient sides with
coef_trans_polygon, then delegate to polygon_iou. -/
def coef_iou {H : Type} (sqrtFn : ℚ → ℚ) (p2c : ℚ → ℚ → ℚ × ℚ)
    (hull : List (ℚ × ℚ) → H) (interArea : H → H → Option ℚ)
    (unionHullArea : List (ℚ × ℚ) → Option ℚ)
    (coef_as coef_bs : List (List ℚ)) (bbox_as bbox_bs : List Box)
    (center_as center_bs : List (ℚ × ℚ)) : List (List ℚ) :=
  polygon_iou hull interArea unionHullArea
    (coef_trans_polygon sqrtFn p2c coef_as bbox_as center_as)
    (coef_trans_polygon sqrtFn p2c coef_bs bbox_bs center_bs)

/-- Function coef_polygon_iou of bbox.py: the ground truth sample tables
are reshaped to (M, 360, 1) and concatenated on the last axis, which pairs
the x and y samples pointwise per row; the prediction side is reconstructed
with coef_trans_polygon; then polygon_iou. -/
def coef_polygon_iou {H : Type} (sqrtFn : ℚ → ℚ) (p2c : ℚ → ℚ → ℚ × ℚ)
    (hull : List (ℚ × ℚ) → H) (interArea : H → H → Option ℚ)
    (unionHullArea : List (ℚ × ℚ) → Option ℚ)
    (pred_coef_l : List (List ℚ)) (pred_center_l : List (ℚ × ℚ))
    (pred_bbox_l : List Box)
    (gt_points_xs_l gt_points_ys_l : List (List ℚ)) : List (List ℚ) :=
  polygon_iou hull interArea unionHullArea
    (coef_trans_polygon sqrtFn p2c pred_coef_l pred_bbox_l pred_center_l)
    (List.zipWith (fun xs ys => List.zipWith Prod.mk xs ys)
      gt_points_xs_l gt_points_ys_l)

/-- The spec side of claim C8, variant (b): the ground truth x and y sample
tables viewed directly as (M, 360, 2) polygons, pairing the samples
pointwise per row. -/
def gt_points_polygons (gt_points_xs_l gt_points_ys_l : List (List ℚ)) :
    List (List (ℚ × ℚ)) :=
  List.zipWith (fun xs ys => List.zipWith Prod.mk xs ys)
    gt_points_xs_l gt_points_ys_l

/-- C2: for every pair (i, j) of input polygons, the polygon_iou entry is
exactly 0 whenever the intersection primitive reports a zero area, the
pooled point hull primitive reports a zero area, or the intersection
computation raises a topological failure (modelled by none); the failure is
absorbed into the entry, never propagated, since polygon_iou is a total
function into matrices. -/
theorem polygon_iou_degenerate_zero_C2 {H : Type} (hull : List (ℚ × ℚ) → H)
    (interArea : H → H → Option ℚ)
    (unionHullArea : List (ℚ × ℚ) → Option ℚ)
    (pas pbs : List (List (ℚ × ℚ))) (i j : ℕ) (pa pb : List (ℚ × ℚ))
    (ha : pas[i]? = some pa) (hb : pbs[j]? = some pb)
    (hdeg : interArea (hull pa) (hull pb) = none ∨
      interArea (hull pa) (hull pb) = some 0 ∨
      unionHullArea (pa ++ pb) = some 0) :
    matEntry? (polygon_iou hull interArea unionHullArea pas pbs) i j =
      some 0 := by
  rw [polygon_iou, matEntry?_map_map, ha, hb]
  simp only [Option.some_bind, Option.map_some']
  rcases hdeg with h | h | h
  · rw [h]
  · rw [h]
    cases hu : unionHullArea (pa ++ pb) with
    | none => rfl
    | some ua => simp
  · cases hi : interArea (hull pa) (hull pb) with
    | none => rfl
    | some ia => rw [h]; simp

/-- C2 witness: the degenerate zero theorem evaluated with a one point
polygon pair and an intersection primitive that always raises. -/
theorem polygon_iou_degenerate_zero_C2_witness :
    matEntry? (polygon_iou (fun _ => ()) (fun _ _ => (none : Option ℚ))
      (fun _ => some 1) [[((0 : ℚ), 0)]] [[((1 : ℚ), 1)]]) 0 0 = some 0 :=
  polygon_iou_degenerate_zero_C2 _ _ _ _ _ 0 0 _ _ rfl rfl (Or.inl rfl)

/-- C9: whenever the geometry primitives satisfy the containment inequality
stated by the claim (the intersection area is nonnegative and never exceeds
the pooled point hull area, both hulls lying inside the pooled hull), every
defined entry of polygon_iou lies in the closed interval [0, 1]. -/
theorem polygon_iou_unit_interval_C9 {H : Type} (hull : List (ℚ × ℚ) → H)
    (interArea : H → H → Option ℚ)
    (unionHullArea : List (ℚ × ℚ) → Option ℚ)
    (pas pbs : List (List (ℚ × ℚ)))
    (hgeom : ∀ pa ∈ pas, ∀ pb ∈ pbs, ∀ ia ua,
      interArea (hull pa) (hull pb) = some ia →
      unionHullArea (pa ++ pb) = some ua → 0 ≤ ia ∧ ia ≤ ua)
    (i j : ℕ) (q : ℚ)
    (hq : matEntry? (polygon_iou hull interArea unionHullArea pas pbs) i j =
      some q) :
    0 ≤ q ∧ q ≤ 1 := by
  rw [polygon_iou, matEntry?_map_map] at hq
  cases ha : pas[i]? with
  | none => rw [ha] at hq; simp at hq
  | some pa =>
    cases hb : pbs[j]? with
    | none => rw [ha, hb] at hq; simp at hq
    | some pb =>
      rw [ha, hb] at hq
      simp only [Option.some_bind, Option.map_some', Option.some.injEq] at hq
      have hpa : pa ∈ pas := List.getElem?_mem ha
      have hpb : pb ∈ pbs := List.getElem?_mem hb
      cases hi : interArea (hull pa) (hull pb) with
      | none => rw [hi] at hq; rw [← hq]; norm_num
      | some ia =>
        cases hu : unionHullArea (pa ++ pb) with
        | none => rw [hi, hu] at hq; rw [← hq]; norm_num
        | some ua =>
          rw [hi, hu] at hq
          dsimp only at hq
          by_cases hz : ua = 0 ∨ ia = 0
          · rw [if_pos hz] at hq; rw [← hq]; norm_num
          · rw [if_neg hz] at hq
            push_neg at hz
            obtain ⟨h0, h1⟩ := hgeom pa hpa pb hpb ia ua hi hu
            have hua : 0 < ua :=
              lt_of_le_of_ne (le_trans h0 h1) (Ne.symm hz.1)
            rw [← hq]
            exact ⟨div_nonneg h0 hua.le, (div_le_one hua).mpr h1⟩

/-- C9 witness: the unit interval theorem evaluated with primitives whose
intersection area is 1 and pooled hull area is 2, at entry (0, 0), which
equals one half. -/
theorem polygon_iou_unit_interval_C9_witness :
    0 ≤ (1 : ℚ) / 2 ∧ (1 : ℚ) / 2 ≤ 1 :=
  polygon_iou_unit_interval_C9 (fun _ => ()) (fun _ _ => some 1)
    (fun _ => some 2) [[((0 : ℚ), 0)]] [[((0 : ℚ), 0)]]
    (by
      intro pa _ pb _ ia ua h1 h2
      simp only [Option.some.injEq] at h1 h2
      subst h1
      subst h2
      norm_num)
    0 0 ((1 : ℚ) / 2) rfl

/-- C8: coef_iou is exactly polygon_iou applied to the coef_trans_polygon
reconstruction of each side, and coef_polygon_iou is exactly polygon_iou
applied to the reconstructed prediction polygons and the ground truth
samples reshaped to (M, 360, 2) polygons; neither composite adds any
computation beyond reconstruction or reshaping followed by polygon_iou. -/
theorem coef_iou_delegates_C8 {H : Type} (sqrtFn : ℚ → ℚ)
    (p2c : ℚ → ℚ → ℚ × ℚ) (hull : List (ℚ × ℚ) → H)
    (interArea : H → H → Option ℚ)
    (unionHullArea : List (ℚ × ℚ) → Option ℚ)
    (coef_as coef_bs : List (List ℚ)) (bbox_as bbox_bs : List Box)
    (center_as center_bs : List (ℚ × ℚ))
    (pred_coef_l : List (List ℚ)) (pred_center_l : List (ℚ × ℚ))
    (pred_bbox_l : List Box)
    (gt_points_xs_l gt_points_ys_l : List (List ℚ)) :
    coef_iou sqrtFn p2c hull interArea unionHullArea coef_as coef_bs
        bbox_as bbox_bs center_as center_bs =
      polygon_iou hull interArea unionHullArea
        (coef_trans_polygon sqrtFn p2c coef_as bbox_as center_as)
        (coef_trans_polygon sqrtFn p2c coef_bs bbox_bs center_bs) ∧
      coef_polygon_iou sqrtFn p2c hull interArea unionHullArea pred_coef_l
        pred_center_l pred_bbox_l gt_points_xs_l gt_points_ys_l =
      polygon_iou hull interArea unionHullArea
        (coef_trans_polygon sqrtFn p2c pred_coef_l pred_bbox_l
          pred_center_l)
        (gt_points_polygons gt_points_xs_l gt_points_ys_l) :=
  ⟨rfl, rfl⟩

/-- The sampling grid has 360 points. -/
theorem theta360_length : theta360.length = 360 := by
  rw [theta360, List.length_map, List.length_range]

/-- The descending angle row has 360 entries. -/
theorem thetaDeg_length : thetaDeg.length = 360 := by
  rw [thetaDeg, List.length_map, List.length_range]

/-- Every polygon row produced by coef_trans_polygon has 360 points. -/
theorem coef_trans_polygon_row_length (sqrtFn : ℚ → ℚ)
    (p2c : ℚ → ℚ → ℚ × ℚ) (coefs : List (List ℚ)) (bboxs : List Box)
    (centers : List (ℚ × ℚ)) (i : ℕ) (poly : List (ℚ × ℚ))
    (hp : (coef_trans_polygon sqrtFn p2c coefs bboxs centers)[i]? =
      some poly) :
    poly.length = 360 := by
  rw [coef_trans_polygon] at hp
  obtain ⟨c, bc, hc, hbc, hf⟩ := List.getElem?_zipWith_eq_some.mp hp
  rw [← hf]
  dsimp only
  simp [List.length_map, List.length_zipWith, theta360_length,
    thetaDeg_length]

/-- C1 counterexample: on the inverted box (1, 1, 0, 0) the claimed
intervals [xmin, xmax] = [1, 0] and [ymin, ymax] = [1, 0] are empty, and no
point of the 360 point reconstructed polygon can lie in them, whatever the
external primitives return (here the identity square root and the
polar-to-pair conversion). -/
theorem coef_trans_polygon_in_box_cex_C1 :
    ¬ ∀ pt ∈ ((coef_trans_polygon (fun q => q) (fun r t => (r, t)) [[0]]
        [((1 : ℚ), 1, 0, 0)] [((0 : ℚ), 0)])[0]?.getD []),
      (1 : ℚ) ≤ pt.1 ∧ pt.1 ≤ 0 ∧ (1 : ℚ) ≤ pt.2 ∧ pt.2 ≤ 0 := by
  intro hcl
  have hlen : ((coef_trans_polygon (fun q => q) (fun r t => (r, t)) [[0]]
      [((1 : ℚ), 1, 0, 0)] [((0 : ℚ), 0)])[0]?.getD []).length = 360 :=
    coef_trans_polygon_row_length (fun q => q) (fun r t => (r, t)) [[0]]
      [((1 : ℚ), 1, 0, 0)] [((0 : ℚ), 0)] 0 _ rfl
  obtain ⟨pt, hpt⟩ := List.exists_mem_of_ne_nil
    ((coef_trans_polygon (fun q => q) (fun r t => (r, t)) [[0]]
      [((1 : ℚ), 1, 0, 0)] [((0 : ℚ), 0)])[0]?.getD [])
    (by
      intro hnil
      rw [hnil] at hlen
      simp at hlen)
  have hb := hcl pt hpt
  linarith [hb.1, hb.2.1]

/-- C1 (amended): for all external square root and polar conversion
primitives, every row whose bounding box satisfies xmin ≤ xmax and
ymin ≤ ymax has every point of its reconstructed polygon inside that box:
the x coordinate in [xmin, xmax] and the y coordinate in [ymin, ymax]. -/
theorem coef_trans_polygon_in_box_C1 (sqrtFn : ℚ → ℚ)
    (p2c : ℚ → ℚ → ℚ × ℚ) (coefs : List (List ℚ)) (bboxs : List Box)
    (centers : List (ℚ × ℚ)) (i : ℕ) (x1 y1 x2 y2 : ℚ)
    (hb : bboxs[i]? = some (x1, y1, x2, y2)) (hx : x1 ≤ x2) (hy : y1 ≤ y2)
    (poly : List (ℚ × ℚ))
    (hp : (coef_trans_polygon sqrtFn p2c coefs bboxs centers)[i]? =
      some poly) :
    ∀ pt ∈ poly, x1 ≤ pt.1 ∧ pt.1 ≤ x2 ∧ y1 ≤ pt.2 ∧ pt.2 ≤ y2 := by
  rw [coef_trans_polygon] at hp
  obtain ⟨c, bc, hc, hbc, hf⟩ := List.getElem?_zipWith_eq_some.mp hp
  obtain ⟨hb2, hctr⟩ := List.getElem?_zip_eq_some.mp hbc
  have hbeq : bc.1 = (x1, y1, x2, y2) :=
    Option.some.inj (hb2.symm.trans hb)
  intro pt hpt
  rw [← hf] at hpt
  dsimp only at hpt
  rw [hbeq] at hpt
  obtain ⟨d, hd, rfl⟩ := List.mem_map.mp hpt
  exact ⟨le_min hx (le_max_left _ _), min_le_left _ _,
    le_min hy (le_max_left _ _), min_le_left _ _⟩

/-- C1 witness: the amended containment theorem evaluated at one
coefficient row, the box (0, 0, 2, 2) and the center (0, 0), with the
identity square root and the polar-to-pair conversion, applied to the first
point of the reconstructed polygon. -/
theorem coef_trans_polygon_in_box_C1_witness :
    (0 : ℚ) ≤ (((coef_trans_polygon (fun q => q) (fun r t => (r, t)) [[1]]
        [((0 : ℚ), 0, 2, 2)] [((0 : ℚ), 0)])[0]?.getD []).getD 0
        ((0 : ℚ), 0)).1 ∧
      (((coef_trans_polygon (fun q => q) (fun r t => (r, t)) [[1]]
        [((0 : ℚ), 0, 2, 2)] [((0 : ℚ), 0)])[0]?.getD []).getD 0
        ((0 : ℚ), 0)).1 ≤ 2 ∧
      (0 : ℚ) ≤ (((coef_trans_polygon (fun q => q) (fun r t => (r, t)) [[1]]
        [((0 : ℚ), 0, 2, 2)] [((0 : ℚ), 0)])[0]?.getD []).getD 0
        ((0 : ℚ), 0)).2 ∧
      (((coef_trans_polygon (fun q => q) (fun r t => (r, t)) [[1]]
        [((0 : ℚ), 0, 2, 2)] [((0 : ℚ), 0)])[0]?.getD []).getD 0
        ((0 : ℚ), 0)).2 ≤ 2 := by
  have hlen : ((coef_trans_polygon (fun q => q) (fun r t => (r, t)) [[1]]
      [((0 : ℚ), 0, 2, 2)] [((0 : ℚ), 0)])[0]?.getD []).length = 360 :=
    coef_trans_polygon_row_length (fun q => q) (fun r t => (r, t)) [[1]]
      [((0 : ℚ), 0, 2, 2)] [((0 : ℚ), 0)] 0 _ rfl
  have h0 : 0 < ((coef_trans_polygon (fun q => q) (fun r t => (r, t)) [[1]]
      [((0 : ℚ), 0, 2, 2)] [((0 : ℚ), 0)])[0]?.getD []).length := by
    rw [hlen]
    norm_num
  have hmem : (((coef_trans_polygon (fun q => q) (fun r t => (r, t)) [[1]]
      [((0 : ℚ), 0, 2, 2)] [((0 : ℚ), 0)])[0]?.getD []).getD 0
      ((0 : ℚ), 0)) ∈ ((coef_trans_polygon (fun q => q) (fun r t => (r, t))
      [[1]] [((0 : ℚ), 0, 2, 2)] [((0 : ℚ), 0)])[0]?.getD []) := by
    rw [List.getD_eq_getElem?_getD, List.getElem?_eq_getElem h0,
      Option.getD_some]
    exact List.getElem_mem h0
  exact coef_trans_polygon_in_box_C1 (fun q => q) (fun r t => (r, t)) [[1]]
    [((0 : ℚ), 0, 2, 2)] [((0 : ℚ), 0)] 0 0 0 2 2 rfl (by norm_num)
    (by norm_num) _ rfl _ hmem

end EseSeg
